import Mathlib

/-!
Verification of the chunker-search-opt repository core: a shallow embedding of
the text-splitting and chunking controller in `src/text_tools.py`, the retry
policy in `src/ai_services.py`, and the retrieval front-end in
`src/vector_database.py`.  Python strings are modelled as `List Char`; the
word metric (regex `\w+`) is modelled over the ASCII alphabet, which covers
every input considered here.
-/

/-- Python whitespace, as used by `str.strip`, `str.split` and regex `\s`. -/
def pyIsSpace (c : Char) : Bool :=
  c = ' ' || c = '\t' || c = '\n' || c = '\r' || c = '\x0b' || c = '\x0c'

/-- A word character of the regex class `\w` (ASCII fragment). -/
def isWordChar (c : Char) : Bool :=
  c.isAlphanum || c = '_'

/-- Convenience: the character list of a string literal. -/
def chars (s : String) : List Char := s.data

/-- Maximal runs of characters satisfying `p`; the accumulator holds the
current run in reverse.  Structural recursion keeps it kernel-reducible. -/
def runsAux (p : Char → Bool) : List Char → List Char → List (List Char)
  | acc, [] => if acc = [] then [] else [acc.reverse]
  | acc, c :: cs =>
    if p c then runsAux p (c :: acc) cs
    else if acc = [] then runsAux p [] cs
    else acc.reverse :: runsAux p [] cs

/-- The maximal runs of characters satisfying `p` inside `t`, in order. -/
def runsOf (p : Char → Bool) (t : List Char) : List (List Char) := runsAux p [] t

/-- The words of `t`: maximal `\w+` runs, as matched by `re.findall` in
`count_words`. -/
def wordsOf (t : List Char) : List (List Char) := runsOf isWordChar t

/-- `count_words` of `src/text_tools.py`: `len(re.findall(r'\b\w+\b', text))`. -/
def count_words (t : List Char) : Nat := (wordsOf t).length

/-- The whitespace-separated tokens of `t`, as produced by Python `str.split()`
with no argument (used by `_remove_chunk_from_text`). -/
def tokensOf (t : List Char) : List (List Char) := runsOf (fun c => !pyIsSpace c) t

/-- Python `text.split('\n\n')`: split on each leftmost occurrence of a
double newline, keeping empty pieces. -/
def splitNN : List Char → List (List Char)
  | [] => [[]]
  | [c] => [[c]]
  | c :: d :: rest =>
    if c = '\n' && d = '\n' then [] :: splitNN rest
    else
      match splitNN (d :: rest) with
      | [] => [[c]]
      | p :: ps => (c :: p) :: ps

/-- Python `'\n\n'.join(parts)`. -/
def joinNN : List (List Char) → List Char
  | [] => []
  | [p] => p
  | p :: ps => p ++ '\n' :: '\n' :: joinNN ps

/-- Python `' '.join(parts)`. -/
def joinSpace : List (List Char) → List Char
  | [] => []
  | [p] => p
  | p :: ps => p ++ ' ' :: joinSpace ps

/-- Sentence-ending punctuation of the regex `(?<=[.!?])\s+`. -/
def isSentPunct (c : Char) : Bool :=
  c = '.' || c = '!' || c = '?'

/-- Does the list start with a whitespace character? -/
def startsWithSpace : List Char → Bool
  | [] => false
  | c :: _ => pyIsSpace c

/-- Worker for `re.split(r'(?<=[.!?])\s+', paragraph)`: `inSep` records that we
are inside a separator whitespace run, `acc` holds the current piece in
reverse. -/
def splitSentGo : Bool → List Char → List Char → List (List Char)
  | _, acc, [] => [acc.reverse]
  | inSep, acc, c :: cs =>
    if inSep && pyIsSpace c then splitSentGo true acc cs
    else if isSentPunct c && startsWithSpace cs then
      (c :: acc).reverse :: splitSentGo true [] cs
    else splitSentGo false (c :: acc) cs

/-- Python `re.split(r'(?<=[.!?])\s+', paragraph)`: split after
sentence-ending punctuation followed by whitespace, consuming the
whitespace run. -/
def splitSent (t : List Char) : List (List Char) := splitSentGo false [] t

/-- Greedy sentence accumulation of `split_text_by_words`: take whole
sentences while the running word total stays within the target, stop at the
first sentence that would overflow. -/
def gatherSents (target : Nat) : Nat → List (List Char) → List (List Char)
  | _, [] => []
  | cur, s :: rest =>
    let sw := count_words s
    if cur + sw ≤ target then s :: gatherSents target (cur + sw) rest
    else []

/-- Greedy paragraph accumulation of `split_text_by_words`: take whole
paragraphs while within the target; at the first overflowing paragraph, fall
back to sentences when the running total is below 80% of the target
(`current_words < target_words * 0.8`, modelled exactly as
`5 * cur < 4 * target`, which agrees with the float comparison for all
realistic sizes), otherwise stop. -/
def gatherParas (target : Nat) : Nat → List (List Char) → List (List Char)
  | _, [] => []
  | cur, p :: rest =>
    let pw := count_words p
    if cur + pw ≤ target then p :: gatherParas target (cur + pw) rest
    else if 5 * cur < 4 * target then gatherSents target cur (splitSent p)
    else []

/-- `split_text_by_words` of `src/text_tools.py`: return the whole text when
it fits, otherwise join the gathered parts with blank lines, and obtain the
remainder by removing the joined length from the front of the original text
and left-stripping newlines and spaces. -/
def split_text_by_words (text : List Char) (target : Nat) : List Char × List Char :=
  if count_words text ≤ target then (text, [])
  else
    let extracted := joinNN (gatherParas target 0 (splitNN text))
    if extracted = [] then ([], text)
    else (extracted, (text.drop extracted.length).dropWhile fun c => c = '\n' || c = ' ')

/-- Python `str.strip()`: drop whitespace from both ends. -/
def pystrip (t : List Char) : List Char :=
  ((t.dropWhile pyIsSpace).reverse.dropWhile pyIsSpace).reverse

/-- Python `s.strip() == ''` (falsy after stripping): every character is
whitespace. -/
def isBlank (t : List Char) : Bool := t.all pyIsSpace

/-- `_remove_chunk_from_text` of `src/text_tools.py`: drop
`count_words content` leading whitespace-separated tokens from the working
text and re-join the rest with single spaces; empty when not enough tokens
remain. -/
def remove_chunk_from_text (current : List Char) (content : List Char) : List Char :=
  let cw := count_words content
  let ws := tokensOf current
  if cw < ws.length then joinSpace (ws.drop cw) else []

/-- A semantic chunk as handled by `process_large_text` (the dictionaries
with heading, content, keywords, summary). -/
structure SemChunk where
  heading : List Char
  content : List Char
  keywords : List (List Char)
  summary : List Char
deriving DecidableEq

/-- One parsed Segmenter response: either a dict with an `error` key, or the
list under its `chunks` key (the missing-key case behaves like the empty
list). -/
inductive SegResult where
  | error (msg : List Char)
  | chunks (cs : List SemChunk)

/-- Does the response take one of the two fallback branches of
`process_large_text` (error, or missing/empty chunk list)? -/
def SegResult.isFallback : SegResult → Bool
  | .error _ => true
  | .chunks [] => true
  | .chunks (_ :: _) => false

/-- Total word count of the contents of a chunk list. -/
def totalContentWords (cs : List SemChunk) : Nat :=
  (cs.map fun c => count_words c.content).sum

/-- The tiny-chunk fallback (`working_words < 10`). -/
def tinyChunk (w : List Char) : SemChunk :=
  ⟨chars "Content", pystrip w, [], chars "Very small content section"⟩

/-- The error fallback (`"error" in parsed_result`). -/
def errorChunk (w msg : List Char) : SemChunk :=
  ⟨chars "Processing Error", w, [], chars "Error during processing: " ++ msg⟩

/-- The empty-response fallback (no `chunks` key or empty list). -/
def emptyChunk (w : List Char) : SemChunk :=
  ⟨chars "Unprocessed Content", w, [], chars "Content that could not be broken into chunks"⟩

/-- The tiny-remainder fallback (`0 < remaining_working_words < 10`). -/
def remainderChunk (w : List Char) : SemChunk :=
  ⟨chars "Additional Content", pystrip w, [], chars "Remaining content from processing"⟩

/-- `MIN_CHUNK_REFILL_SIZE` of `src/constants.py`. -/
def MIN_CHUNK_REFILL_SIZE : Nat := 3500

/-- `DEFAULT_CHUNK_SIZE` of `src/constants.py`. -/
def DEFAULT_CHUNK_SIZE : Nat := 7000

/-- Control position inside `process_large_text`: at the head of the outer
(window-taking) loop, at the head of the inner (segmenting) loop, or
returned. -/
inductive CPhase where
  | outer
  | inner
  | done
deriving DecidableEq

/-- The state of `process_large_text`: accumulated chunks, the working
chunk, the remaining text, the control position, the number of Segmenter
calls made so far, and the number of completed outer iterations. -/
structure CState where
  chunks : List SemChunk
  working : List Char
  remaining : List Char
  phase : CPhase
  calls : Nat
  iters : Nat
deriving DecidableEq

/-- The part of an inner-loop iteration after the refill check: save a tiny
working chunk directly, otherwise consume one Segmenter response and branch
on it exactly as `process_large_text` does. -/
def innerAfterRefill (stream : Nat → SegResult) (s : CState) (ww : Nat) : CState :=
  if ww < 10 then
    { s with chunks := s.chunks ++ [tinyChunk s.working],
             phase := .outer, iters := s.iters + 1 }
  else
    match stream s.calls with
    | .error msg =>
      { s with chunks := s.chunks ++ [errorChunk s.working msg],
               calls := s.calls + 1, phase := .outer, iters := s.iters + 1 }
    | .chunks [] =>
      { s with chunks := s.chunks ++ [emptyChunk s.working],
               calls := s.calls + 1, phase := .outer, iters := s.iters + 1 }
    | .chunks (c :: cs) =>
      let received := c :: cs
      let w2 := received.foldl (fun w ch => remove_chunk_from_text w ch.content) s.working
      let rw := if isBlank w2 then 0 else count_words w2
      if 0 < rw ∧ rw < 10 then
        { s with chunks := s.chunks ++ received ++ [remainderChunk w2],
                 working := [], calls := s.calls + 1 }
      else
        { s with chunks := s.chunks ++ received, working := w2, calls := s.calls + 1 }

/-- One loop iteration of `process_large_text`: an outer-loop head takes a
working chunk (or returns), an inner-loop head refills, saves a tiny chunk,
or consumes one Segmenter response.  `stream k` is the parsed response of
the `k`-th Segmenter call. -/
def ctrlStep (chunkSize : Nat) (stream : Nat → SegResult) (s : CState) : CState :=
  match s.phase with
  | .done => s
  | .outer =>
    if isBlank s.remaining then { s with phase := .done }
    else
      let wr := split_text_by_words s.remaining chunkSize
      if isBlank wr.1 then { s with working := wr.1, remaining := wr.2, phase := .done }
      else { s with working := wr.1, remaining := wr.2, phase := .inner }
  | .inner =>
    if isBlank s.working then { s with phase := .outer, iters := s.iters + 1 }
    else
      let ww := count_words s.working
      if ww < MIN_CHUNK_REFILL_SIZE ∧ ¬ isBlank s.remaining then
        let fr := split_text_by_words s.remaining MIN_CHUNK_REFILL_SIZE
        if ¬ isBlank fr.1 then
          { s with working := pystrip (s.working ++ chars "\n\n" ++ fr.1),
                   remaining := fr.2 }
        else innerAfterRefill stream { s with remaining := fr.2 } ww
      else innerAfterRefill stream s ww

/-- The initial state of `process_large_text text`. -/
def initState (text : List Char) : CState :=
  ⟨[], [], text, .outer, 0, 0⟩

/-- Iterate `ctrlStep`. -/
def ctrlStepN (chunkSize : Nat) (stream : Nat → SegResult) : Nat → CState → CState
  | 0, s => s
  | n + 1, s => ctrlStep chunkSize stream (ctrlStepN chunkSize stream n s)

/-- `process_large_text` as a bounded run of the loop semantics: the chunk
list it returns, provided `fuel` iterations suffice to reach the return. -/
def process_large_text (chunkSize : Nat) (stream : Nat → SegResult)
    (text : List Char) (fuel : Nat) : Option (List SemChunk) :=
  let s := ctrlStepN chunkSize stream fuel (initState text)
  if s.phase = .done then some s.chunks else none

/-- The concatenated word sequence of the contents of a chunk list. -/
def contentWords (cks : List SemChunk) : List (List Char) :=
  (cks.map fun c => wordsOf c.content).flatten

/-! ### Lemmas about character runs -/

theorem pyIsSpace_not_word {c : Char} (h : pyIsSpace c = true) : isWordChar c = false := by
  simp only [pyIsSpace, Bool.or_eq_true, decide_eq_true_eq] at h
  rcases h with ((((h | h) | h) | h) | h) | h <;> subst h <;> decide

theorem runsAux_append_sep (p : Char → Bool) {c : Char} (hc : p c = false) (b : List Char) :
    ∀ (a acc : List Char),
      runsAux p acc (a ++ c :: b) = runsAux p acc a ++ runsAux p [] b := by
  intro a
  induction a with
  | nil =>
    intro acc
    by_cases h : acc = [] <;> simp [runsAux, hc, h]
  | cons x a ih =>
    intro acc
    by_cases hx : p x = true
    · simp [runsAux, hx, ih]
    · by_cases h : acc = [] <;>
        simp [runsAux, hx, Bool.not_eq_true _ ▸ hx, h, ih]

theorem runsOf_cons_sep (p : Char → Bool) {c : Char} (hc : p c = false) (t : List Char) :
    runsOf p (c :: t) = runsOf p t := by
  simp [runsOf, runsAux, hc]

theorem runsOf_append_sep (p : Char → Bool) {c : Char} (hc : p c = false)
    (a b : List Char) : runsOf p (a ++ c :: b) = runsOf p a ++ runsOf p b := by
  simp [runsOf, runsAux_append_sep p hc b a []]

theorem runsOf_eq_nil (p : Char → Bool) :
    ∀ (t : List Char), (∀ x ∈ t, p x = false) → runsOf p t = [] := by
  intro t
  induction t with
  | nil => intro _; rfl
  | cons x t ih =>
    intro h
    rw [runsOf_cons_sep p (h x (List.mem_cons_self x t))]
    exact ih fun y hy => h y (List.mem_cons_of_mem x hy)

theorem runsAux_eq_nil_iff (p : Char → Bool) :
    ∀ (t acc : List Char), runsAux p acc t = [] → acc = [] ∧ ∀ x ∈ t, p x = false := by
  intro t
  induction t with
  | nil =>
    intro acc h
    by_cases hacc : acc = []
    · exact ⟨hacc, by simp⟩
    · simp [runsAux, hacc] at h
  | cons x t ih =>
    intro acc h
    by_cases hx : p x = true
    · rcases ih (x :: acc) (by simpa [runsAux, hx] using h) with ⟨habs, _⟩
      exact absurd habs (by simp)
    · have hx' : p x = false := by simpa using hx
      by_cases hacc : acc = []
      · rcases ih [] (by simpa [runsAux, hx', hacc] using h) with ⟨_, hall⟩
        exact ⟨hacc, by
          intro y hy
          rcases List.mem_cons.mp hy with hy | hy
          · subst hy; exact hx'
          · exact hall y hy⟩
      · simp [runsAux, hx', hacc] at h

theorem runsOf_ne_nil (p : Char → Bool) {t : List Char} {x : Char}
    (hx : x ∈ t) (hp : p x = true) : runsOf p t ≠ [] := by
  intro h
  rcases runsAux_eq_nil_iff p t [] h with ⟨_, hall⟩
  rw [hall x hx] at hp
  exact Bool.false_ne_true hp

theorem runsAux_all_pos (p : Char → Bool) :
    ∀ (t acc : List Char), (t ≠ [] ∨ acc ≠ []) → (∀ x ∈ t, p x = true) →
      runsAux p acc t = [acc.reverse ++ t] := by
  intro t
  induction t with
  | nil =>
    intro acc hne _
    rcases hne with h | h
    · exact absurd rfl h
    · simp [runsAux, h]
  | cons x t ih =>
    intro acc _ hall
    have hx : p x = true := hall x (List.mem_cons_self x t)
    rw [runsAux, if_pos hx,
      ih (x :: acc) (Or.inr (by simp)) (fun y hy => hall y (List.mem_cons_of_mem x hy))]
    simp

theorem runsOf_all_pos (p : Char → Bool) {t : List Char} (hne : t ≠ [])
    (hall : ∀ x ∈ t, p x = true) : runsOf p t = [t] := by
  simpa using runsAux_all_pos p t [] (Or.inl hne) hall

theorem runsAux_mem_spec (p : Char → Bool) :
    ∀ (t acc : List Char), (∀ c ∈ acc, p c = true) →
      ∀ x ∈ runsAux p acc t, x ≠ [] ∧ ∀ c ∈ x, p c = true := by
  intro t
  induction t with
  | nil =>
    intro acc hacc x hx
    by_cases h : acc = []
    · simp [runsAux, h] at hx
    · simp [runsAux, h] at hx
      subst hx
      exact ⟨by simpa using h, fun c hc => hacc c (List.mem_reverse.mp hc)⟩
  | cons y t ih =>
    intro acc hacc x hx
    by_cases hy : p y = true
    · refine ih (y :: acc) ?_ x (by simpa [runsAux, hy] using hx)
      intro c hc
      rcases List.mem_cons.mp hc with hc | hc
      · subst hc; exact hy
      · exact hacc c hc
    · have hy' : p y = false := by simpa using hy
      by_cases h : acc = []
      · exact ih [] (by simp) x (by simpa [runsAux, hy', h] using hx)
      · rw [runsAux, if_neg (by simp [hy']), if_neg h] at hx
        rcases List.mem_cons.mp hx with hx | hx
        · subst hx
          exact ⟨by simpa using h, fun c hc => hacc c (List.mem_reverse.mp hc)⟩
        · exact ih [] (by simp) x hx

theorem runsOf_mem_spec (p : Char → Bool) {t x : List Char}
    (hx : x ∈ runsOf p t) : x ≠ [] ∧ ∀ c ∈ x, p c = true :=
  runsAux_mem_spec p t [] (by simp) x hx

/-! ### Words, tokens, stripping and joining -/

theorem wordsOf_of_isBlank {t : List Char} (h : isBlank t = true) : wordsOf t = [] :=
  runsOf_eq_nil _ t fun x hx => pyIsSpace_not_word (List.all_eq_true.mp h x hx)

theorem tokensOf_ne_nil {t : List Char} (h : isBlank t = false) : tokensOf t ≠ [] := by
  obtain ⟨x, hx, hpx⟩ := List.all_eq_false.mp h
  exact runsOf_ne_nil _ hx (by simpa using hpx)

theorem wordsOf_cons_space {c : Char} (hc : pyIsSpace c = true) (t : List Char) :
    wordsOf (c :: t) = wordsOf t :=
  runsOf_cons_sep _ (pyIsSpace_not_word hc) t

theorem wordsOf_append_nn (a b : List Char) :
    wordsOf (a ++ chars "\n\n" ++ b) = wordsOf a ++ wordsOf b := by
  have h : a ++ chars "\n\n" ++ b = a ++ '\n' :: ('\n' :: b) := by
    simp [chars]
  rw [h, wordsOf, runsOf_append_sep _ (show isWordChar '\n' = false by decide),
    runsOf_cons_sep _ (show isWordChar '\n' = false by decide)]
  rfl

theorem wordsOf_append_nn' (a b : List Char) :
    wordsOf (a ++ (chars "\n\n" ++ b)) = wordsOf a ++ wordsOf b := by
  rw [← List.append_assoc]
  exact wordsOf_append_nn a b

theorem wordsOf_dropWhile_space (t : List Char) :
    wordsOf (t.dropWhile pyIsSpace) = wordsOf t := by
  induction t with
  | nil => rfl
  | cons c t ih =>
    by_cases hc : pyIsSpace c = true
    · rw [List.dropWhile_cons, if_pos hc, ih, wordsOf_cons_space hc]
    · rw [List.dropWhile_cons, if_neg hc]

theorem wordsOf_append_spaces {tr : List Char} (h : ∀ x ∈ tr, pyIsSpace x = true)
    (a : List Char) : wordsOf (a ++ tr) = wordsOf a := by
  cases tr with
  | nil => simp
  | cons s tr' =>
    rw [wordsOf, runsOf_append_sep _ (pyIsSpace_not_word (h s (List.mem_cons_self s tr'))),
      runsOf_eq_nil _ tr'
        (fun x hx => pyIsSpace_not_word (h x (List.mem_cons_of_mem s hx))),
      List.append_nil]
    rfl

theorem wordsOf_pystrip (t : List Char) : wordsOf (pystrip t) = wordsOf t := by
  unfold pystrip
  have hdec : t.dropWhile pyIsSpace =
      ((t.dropWhile pyIsSpace).reverse.dropWhile pyIsSpace).reverse
        ++ ((t.dropWhile pyIsSpace).reverse.takeWhile pyIsSpace).reverse := by
    conv_lhs => rw [← (t.dropWhile pyIsSpace).reverse_reverse,
      ← List.takeWhile_append_dropWhile pyIsSpace (t.dropWhile pyIsSpace).reverse]
    rw [List.reverse_append]
  have htr : ∀ x ∈ ((t.dropWhile pyIsSpace).reverse.takeWhile pyIsSpace).reverse,
      pyIsSpace x = true :=
    fun x hx => List.mem_takeWhile_imp (List.mem_reverse.mp hx)
  calc wordsOf ((t.dropWhile pyIsSpace).reverse.dropWhile pyIsSpace).reverse
      = wordsOf (((t.dropWhile pyIsSpace).reverse.dropWhile pyIsSpace).reverse
          ++ ((t.dropWhile pyIsSpace).reverse.takeWhile pyIsSpace).reverse) :=
        (wordsOf_append_spaces htr _).symm
    _ = wordsOf (t.dropWhile pyIsSpace) := by rw [← hdec]
    _ = wordsOf t := wordsOf_dropWhile_space t

theorem all_dropWhile_self (p : Char → Bool) (l : List Char) :
    (l.dropWhile p).all p = l.all p := by
  induction l with
  | nil => rfl
  | cons c l ih =>
    by_cases hc : p c = true
    · rw [List.dropWhile_cons, if_pos hc, ih, List.all_cons, hc, Bool.true_and]
    · rw [List.dropWhile_cons, if_neg hc]

theorem isBlank_append (a b : List Char) :
    isBlank (a ++ b) = (isBlank a && isBlank b) := List.all_append

theorem isBlank_pystrip (t : List Char) : isBlank (pystrip t) = isBlank t := by
  unfold pystrip isBlank
  rw [List.all_reverse, all_dropWhile_self, List.all_reverse, all_dropWhile_self]

theorem wordsOf_joinNN : ∀ parts : List (List Char),
    wordsOf (joinNN parts) = (parts.map wordsOf).flatten := by
  intro parts
  induction parts with
  | nil => rfl
  | cons p ps ih =>
    cases ps with
    | nil => simp [joinNN]
    | cons q ps' =>
      have hj : joinNN (p :: q :: ps') = p ++ '\n' :: ('\n' :: joinNN (q :: ps')) := rfl
      rw [hj, wordsOf, runsOf_append_sep _ (show isWordChar '\n' = false by decide),
        runsOf_cons_sep _ (show isWordChar '\n' = false by decide)]
      rw [List.map_cons, List.flatten_cons, ← ih]
      rfl

theorem count_words_joinNN (parts : List (List Char)) :
    count_words (joinNN parts) = (parts.map count_words).sum := by
  rw [count_words, wordsOf_joinNN, List.length_flatten, List.map_map]
  rfl

theorem tokensOf_joinSpace : ∀ ts : List (List Char),
    (∀ t ∈ ts, t ≠ [] ∧ ∀ c ∈ t, pyIsSpace c = false) →
    tokensOf (joinSpace ts) = ts := by
  intro ts
  induction ts with
  | nil => intro _; rfl
  | cons t ts ih =>
    intro h
    have ht := h t (List.mem_cons_self t ts)
    have htall : ∀ c ∈ t, (fun c => !pyIsSpace c) c = true := by
      intro c hc; simp [ht.2 c hc]
    cases ts with
    | nil =>
      show tokensOf t = [t]
      exact runsOf_all_pos _ ht.1 htall
    | cons u ts' =>
      have hj : joinSpace (t :: u :: ts') = t ++ ' ' :: joinSpace (u :: ts') := rfl
      rw [hj, tokensOf, runsOf_append_sep _ (show (fun c => !pyIsSpace c) ' ' = false by decide),
        runsOf_all_pos _ ht.1 htall]
      rw [show runsOf (fun c => !pyIsSpace c) (joinSpace (u :: ts')) = tokensOf (joinSpace (u :: ts')) from rfl,
        ih fun x hx => h x (List.mem_cons_of_mem t hx)]
      rfl

theorem tokensOf_remove_chunk (w c : List Char) :
    tokensOf (remove_chunk_from_text w c) = (tokensOf w).drop (count_words c) := by
  unfold remove_chunk_from_text
  by_cases h : count_words c < (tokensOf w).length
  · rw [if_pos h]
    apply tokensOf_joinSpace
    intro t ht
    have hspec := runsOf_mem_spec _ (List.drop_subset _ _ ht)
    exact ⟨hspec.1, fun ch hch => by simpa using hspec.2 ch hch⟩
  · rw [if_neg h, List.drop_eq_nil_of_le (Nat.le_of_not_lt h)]
    rfl

theorem tokensOf_fold_remove (cs : List SemChunk) : ∀ w : List Char,
    tokensOf (cs.foldl (fun w ch => remove_chunk_from_text w ch.content) w)
      = (tokensOf w).drop (totalContentWords cs) := by
  induction cs with
  | nil => intro w; simp [totalContentWords]
  | cons c cs ih =>
    intro w
    rw [List.foldl_cons, ih, tokensOf_remove_chunk, List.drop_drop]
    have : totalContentWords (c :: cs)
        = count_words c.content + totalContentWords cs := by
      simp [totalContentWords]
    rw [this]

/-! ### Size bounds and length facts for the splitter -/

theorem gatherSents_sum (target : Nat) : ∀ (ss : List (List Char)) (cur : Nat),
    cur ≤ target →
    cur + ((gatherSents target cur ss).map count_words).sum ≤ target := by
  intro ss
  induction ss with
  | nil => intro cur h; simpa using h
  | cons s rest ih =>
    intro cur h
    by_cases hf : cur + count_words s ≤ target
    · have hrec := ih (cur + count_words s) hf
      simp only [gatherSents, hf, if_true, List.map_cons, List.sum_cons]
      omega
    · simp only [gatherSents, hf, if_false]
      simpa using h

theorem gatherParas_sum (target : Nat) : ∀ (ps : List (List Char)) (cur : Nat),
    cur ≤ target →
    cur + ((gatherParas target cur ps).map count_words).sum ≤ target := by
  intro ps
  induction ps with
  | nil => intro cur h; simpa using h
  | cons p rest ih =>
    intro cur h
    by_cases hf : cur + count_words p ≤ target
    · have hrec := ih (cur + count_words p) hf
      simp only [gatherParas, hf, if_true, List.map_cons, List.sum_cons]
      omega
    · by_cases h8 : 5 * cur < 4 * target
      · simp only [gatherParas, hf, if_false, h8, if_true]
        exact gatherSents_sum target (splitSent p) cur h
      · simp only [gatherParas, hf, if_false, h8]
        simpa using h

theorem isBlank_nil : isBlank ([] : List Char) = true := rfl

theorem length_pos_of_not_blank {t : List Char} (h : isBlank t = false) :
    0 < t.length := by
  cases t with
  | nil => simp [isBlank] at h
  | cons c t => simp

theorem split_base {t : List Char} {g : Nat} (h : count_words t ≤ g) :
    split_text_by_words t g = (t, []) := by
  unfold split_text_by_words
  rw [if_pos h]

theorem split_snd_length_lt {t : List Char} {g : Nat}
    (ht : isBlank t = false) (hw : isBlank (split_text_by_words t g).1 = false) :
    (split_text_by_words t g).2.length < t.length := by
  unfold split_text_by_words
  by_cases h : count_words t ≤ g
  · rw [if_pos h]
    exact length_pos_of_not_blank ht
  · rw [if_neg h]
    by_cases he : joinNN (gatherParas g 0 (splitNN t)) = []
    · exfalso
      unfold split_text_by_words at hw
      rw [if_neg h] at hw
      simp only [he, if_true] at hw
      simp [isBlank] at hw
    · simp only [he, if_false]
      have h1 : ((t.drop (joinNN (gatherParas g 0 (splitNN t))).length).dropWhile
          (fun c => c = '\n' || c = ' ')).length
          ≤ (t.drop (joinNN (gatherParas g 0 (splitNN t))).length).length :=
        (List.dropWhile_sublist _).length_le
      rw [List.length_drop] at h1
      have h2 : 1 ≤ (joinNN (gatherParas g 0 (splitNN t))).length :=
        List.length_pos.mpr he
      have h3 : 1 ≤ t.length := length_pos_of_not_blank ht
      omega

/-! ### The word-conservation invariant of the controller -/

/-- The word multiset tracked by the controller, in order: words already
emitted in chunks, then the words of the working chunk (only while the inner
loop owns it), then the words of the remaining text. -/
def seqWords (s : CState) : List (List Char) :=
  contentWords s.chunks
    ++ (if s.phase = CPhase.inner then wordsOf s.working else [])
    ++ wordsOf s.remaining

theorem contentWords_append (a b : List SemChunk) :
    contentWords (a ++ b) = contentWords a ++ contentWords b := by
  simp [contentWords]

/-- Word conservation of one call to `split_text_by_words`: the words of the
two returned pieces concatenate to the words of the input.  (This fails in
general because of the sentence-level boundary arithmetic; it is used as a
per-call hypothesis.) -/
def splitConserves (t : List Char) (g : Nat) : Prop :=
  wordsOf (split_text_by_words t g).1 ++ wordsOf (split_text_by_words t g).2 = wordsOf t

/-- Progress of one call to `split_text_by_words`: a non-blank input yields a
non-blank extracted prefix.  (Fails in general: an oversized unsplittable
sentence yields an empty prefix.) -/
def splitProgressive (t : List Char) (g : Nat) : Prop :=
  isBlank t = false → isBlank (split_text_by_words t g).1 = false

instance (t : List Char) (g : Nat) : Decidable (splitConserves t g) := by
  unfold splitConserves; exact inferInstance

instance (t : List Char) (g : Nat) : Decidable (splitProgressive t g) := by
  unfold splitProgressive; exact inferInstance

theorem innerAfterRefill_remaining (stream : Nat → SegResult) (s : CState) (ww : Nat) :
    (innerAfterRefill stream s ww).remaining = s.remaining := by
  unfold innerAfterRefill
  by_cases h10 : ww < 10
  · simp [h10]
  · simp only [h10, if_false]
    cases hs : stream s.calls with
    | error msg => simp
    | chunks cs =>
      cases cs with
      | nil => simp
      | cons c cs' =>
        simp only
        split_ifs <;> simp

theorem innerAfterRefill_phase (stream : Nat → SegResult) (s : CState) (ww : Nat) :
    (innerAfterRefill stream s ww).phase = CPhase.outer
      ∨ (innerAfterRefill stream s ww).phase = s.phase := by
  unfold innerAfterRefill
  by_cases h10 : ww < 10
  · simp [h10]
  · simp only [h10, if_false]
    cases hs : stream s.calls with
    | error msg => simp
    | chunks cs =>
      cases cs with
      | nil => simp
      | cons c cs' =>
        simp only
        split_ifs <;> simp

theorem seqWords_innerAfterRefill (stream : Nat → SegResult) (s : CState) (ww : Nat)
    (Hresp : (stream s.calls).isFallback = true) (hph : s.phase = CPhase.inner) :
    seqWords (innerAfterRefill stream s ww) = seqWords s := by
  obtain ⟨cks, w, rem, ph, cl, it⟩ := s
  simp only at hph Hresp
  subst hph
  unfold innerAfterRefill
  by_cases h10 : ww < 10
  · simp [h10, seqWords, contentWords_append, contentWords, wordsOf_pystrip, tinyChunk]
  · simp only [h10, if_false]
    cases hs : stream cl with
    | error msg =>
      simp [seqWords, contentWords_append, contentWords, errorChunk]
    | chunks cs =>
      cases cs with
      | nil => simp [seqWords, contentWords_append, contentWords, emptyChunk]
      | cons c cs' =>
        exfalso
        rw [hs] at Hresp
        simp [SegResult.isFallback] at Hresp

theorem seqWords_ctrlStep (chunkSize : Nat) (stream : Nat → SegResult) (s : CState)
    (Hresp : (stream s.calls).isFallback = true)
    (Hc : splitConserves s.remaining chunkSize)
    (Hr : splitConserves s.remaining MIN_CHUNK_REFILL_SIZE) :
    seqWords (ctrlStep chunkSize stream s) = seqWords s := by
  unfold splitConserves at Hc Hr
  obtain ⟨cks, w, rem, ph, cl, it⟩ := s
  simp only at Hresp Hc Hr
  cases ph with
  | done => rfl
  | outer =>
    simp only [ctrlStep]
    by_cases hb : isBlank rem = true
    · simp [hb, seqWords]
    · simp only [hb, if_false]
      by_cases hw : isBlank (split_text_by_words rem chunkSize).1 = true
      · simp only [hw, if_true]
        have h1 : wordsOf (split_text_by_words rem chunkSize).1 = [] :=
          wordsOf_of_isBlank hw
        rw [h1, List.nil_append] at Hc
        simp [seqWords, Hc]
      · simp only [hw, if_false]
        simp [seqWords, ← Hc]
  | inner =>
    simp only [ctrlStep]
    by_cases hbw : isBlank w = true
    · simp [hbw, seqWords, wordsOf_of_isBlank hbw]
    · rw [if_neg hbw]
      by_cases hcond : count_words w < MIN_CHUNK_REFILL_SIZE ∧ ¬ isBlank rem = true
      · rw [if_pos hcond]
        by_cases hf : isBlank (split_text_by_words rem MIN_CHUNK_REFILL_SIZE).1 = true
        · rw [if_neg (by simpa using hf)]
          have h1 : wordsOf (split_text_by_words rem MIN_CHUNK_REFILL_SIZE).1 = [] :=
            wordsOf_of_isBlank hf
          rw [h1, List.nil_append] at Hr
          rw [seqWords_innerAfterRefill stream
            ⟨cks, w, (split_text_by_words rem MIN_CHUNK_REFILL_SIZE).2, .inner, cl, it⟩
            (count_words w) Hresp rfl]
          simp [seqWords, Hr]
        · rw [if_pos (by simpa using hf)]
          simp [seqWords, wordsOf_pystrip, wordsOf_append_nn', ← Hr]
      · rw [if_neg hcond]
        exact seqWords_innerAfterRefill stream ⟨cks, w, rem, .inner, cl, it⟩
          (count_words w) Hresp rfl

theorem done_blank_ctrlStep (chunkSize : Nat) (stream : Nat → SegResult) (s : CState)
    (Hp : splitProgressive s.remaining chunkSize)
    (h : s.phase = CPhase.done → isBlank s.remaining = true) :
    (ctrlStep chunkSize stream s).phase = CPhase.done →
      isBlank (ctrlStep chunkSize stream s).remaining = true := by
  unfold splitProgressive at Hp
  obtain ⟨cks, w, rem, ph, cl, it⟩ := s
  simp only at Hp h
  cases ph with
  | done => intro _; exact h rfl
  | outer =>
    simp only [ctrlStep]
    by_cases hb : isBlank rem = true
    · rw [if_pos hb]
      intro _
      exact hb
    · rw [if_neg hb]
      by_cases hw : isBlank (split_text_by_words rem chunkSize).1 = true
      · exfalso
        have := Hp (by simpa using hb)
        rw [this] at hw
        exact Bool.false_ne_true hw
      · rw [if_neg hw]
        intro habs
        simp at habs
  | inner =>
    simp only [ctrlStep]
    by_cases hbw : isBlank w = true
    · rw [if_pos hbw]
      intro habs
      simp at habs
    · rw [if_neg hbw]
      by_cases hcond : count_words w < MIN_CHUNK_REFILL_SIZE ∧ ¬ isBlank rem = true
      · rw [if_pos hcond]
        by_cases hf : isBlank (split_text_by_words rem MIN_CHUNK_REFILL_SIZE).1 = true
        · rw [if_neg (by simpa using hf)]
          intro habs
          rcases innerAfterRefill_phase stream
            ⟨cks, w, (split_text_by_words rem MIN_CHUNK_REFILL_SIZE).2, .inner, cl, it⟩
            (count_words w) with hph | hph <;> rw [habs] at hph <;> simp at hph
        · rw [if_pos (by simpa using hf)]
          intro habs
          simp at habs
      · rw [if_neg hcond]
        intro habs
        rcases innerAfterRefill_phase stream ⟨cks, w, rem, .inner, cl, it⟩
          (count_words w) with hph | hph <;> rw [habs] at hph <;> simp at hph

theorem ctrlStep_done (chunkSize : Nat) (stream : Nat → SegResult) (s : CState)
    (h : s.phase = CPhase.done) : ctrlStep chunkSize stream s = s := by
  obtain ⟨cks, w, rem, ph, cl, it⟩ := s
  simp only at h
  subst h
  rfl

theorem ctrlStepN_done (chunkSize : Nat) (stream : Nat → SegResult) (s : CState)
    (h : s.phase = CPhase.done) : ∀ m, ctrlStepN chunkSize stream m s = s := by
  intro m
  induction m with
  | zero => rfl
  | succ m ih =>
    show ctrlStep chunkSize stream (ctrlStepN chunkSize stream m s) = s
    rw [ih, ctrlStep_done chunkSize stream s h]

theorem ctrlStepN_add (chunkSize : Nat) (stream : Nat → SegResult) (a b : Nat) (s : CState) :
    ctrlStepN chunkSize stream (a + b) s
      = ctrlStepN chunkSize stream a (ctrlStepN chunkSize stream b s) := by
  induction a with
  | zero => simp [ctrlStepN]
  | succ a ih =>
    have h : a + 1 + b = (a + b) + 1 := by omega
    rw [h]
    show ctrlStep chunkSize stream (ctrlStepN chunkSize stream (a + b) s) = _
    rw [ih]
    rfl

theorem ctrlStepN_succ_inner (chunkSize : Nat) (stream : Nat → SegResult) (n : Nat) (s : CState) :
    ctrlStepN chunkSize stream (n + 1) s
      = ctrlStepN chunkSize stream n (ctrlStep chunkSize stream s) := by
  rw [ctrlStepN_add chunkSize stream n 1 s]
  rfl

theorem seqWords_done {s : CState} (h : s.phase = CPhase.done) :
    seqWords s = contentWords s.chunks ++ wordsOf s.remaining := by
  unfold seqWords
  rw [h]
  simp

/-- A 12-word test document: one paragraph, one sentence, single spaces. -/
def witText : List Char := chars "aa bb cc dd ee ff gg hh ii jj kk ll"

/-- A Segmenter that fails on every call. -/
def errStream : Nat → SegResult := fun _ => SegResult.error (chars "boom")

/-- A Segmenter that returns an empty chunk list on every call. -/
def emptyStream : Nat → SegResult := fun _ => SegResult.chunks []

/-- A Segmenter whose first response is a chunk list whose content is not
part of the document, then errors. -/
def garbStream : Nat → SegResult := fun k =>
  if k = 0 then SegResult.chunks [⟨chars "h", chars "zz qq", [], chars "s"⟩]
  else SegResult.error (chars "boom")

/-- Coverage of a run whose Segmenter responses all take fallback branches:
the emitted contents reproduce the word sequence of the document, provided
every split conserves words and makes progress. -/
theorem fallback_run_coverage (chunkSize : Nat) (stream : Nat → SegResult)
    (text : List Char) (n : Nat)
    (Hresp : ∀ k, (stream k).isFallback = true)
    (Hsplit : ∀ k, k < n →
      splitConserves (ctrlStepN chunkSize stream k (initState text)).remaining chunkSize
      ∧ splitConserves (ctrlStepN chunkSize stream k (initState text)).remaining
          MIN_CHUNK_REFILL_SIZE
      ∧ splitProgressive (ctrlStepN chunkSize stream k (initState text)).remaining chunkSize)
    (Hdone : (ctrlStepN chunkSize stream n (initState text)).phase = CPhase.done) :
    contentWords (ctrlStepN chunkSize stream n (initState text)).chunks = wordsOf text := by
  have main : ∀ m, m ≤ n →
      seqWords (ctrlStepN chunkSize stream m (initState text)) = wordsOf text
      ∧ ((ctrlStepN chunkSize stream m (initState text)).phase = CPhase.done →
         isBlank (ctrlStepN chunkSize stream m (initState text)).remaining = true) := by
    intro m
    induction m with
    | zero =>
      intro _
      constructor
      · simp [seqWords, initState, contentWords, ctrlStepN]
      · intro h
        simp [initState, ctrlStepN] at h
    | succ m ih =>
      intro hm
      obtain ⟨ih1, ih2⟩ := ih (Nat.le_of_succ_le hm)
      obtain ⟨hc, hr, hp⟩ := Hsplit m hm
      constructor
      · show seqWords (ctrlStep chunkSize stream (ctrlStepN chunkSize stream m (initState text)))
            = wordsOf text
        rw [seqWords_ctrlStep chunkSize stream _ (Hresp _) hc hr, ih1]
      · show (ctrlStep chunkSize stream (ctrlStepN chunkSize stream m (initState text))).phase
            = CPhase.done → _
        exact done_blank_ctrlStep chunkSize stream _ hp ih2
  obtain ⟨h1, h2⟩ := main n le_rfl
  have hblank := h2 Hdone
  rw [seqWords_done Hdone, wordsOf_of_isBlank hblank, List.append_nil] at h1
  exact h1

/-- Claim C1 (amended): no data loss holds for the fallback paths.  For every
input document, if every Segmenter response is an error or an empty result,
and every split performed during the run conserves the word sequence and
extracts a non-blank prefix from a non-blank remainder, then the
concatenation of all chunk contents emitted by `process_large_text` contains
every word of the input exactly once and in original order.  (As frozen the
claim also covers arbitrary chunk-list responses; that is refuted by the
counterexample, and the boundary slip of `split_text_by_words` further
forces the conservation hypotheses.) -/
theorem claim_C1 (chunkSize : Nat) (stream : Nat → SegResult) (text : List Char) (n : Nat)
    (Hresp : ∀ k, (stream k).isFallback = true)
    (Hsplit : ∀ k, k < n →
      splitConserves (ctrlStepN chunkSize stream k (initState text)).remaining chunkSize
      ∧ splitConserves (ctrlStepN chunkSize stream k (initState text)).remaining
          MIN_CHUNK_REFILL_SIZE
      ∧ splitProgressive (ctrlStepN chunkSize stream k (initState text)).remaining chunkSize)
    (Hdone : (ctrlStepN chunkSize stream n (initState text)).phase = CPhase.done) :
    contentWords (ctrlStepN chunkSize stream n (initState text)).chunks = wordsOf text :=
  fallback_run_coverage chunkSize stream text n Hresp Hsplit Hdone

/-- Witness for `claim_C1`: the 12-word document with the always-failing
Segmenter reaches the return in 3 iterations; the hypotheses hold and the
emitted content reproduces the word sequence. -/
theorem claim_C1_witness :
    contentWords (ctrlStepN 7000 errStream 3 (initState witText)).chunks = wordsOf witText :=
  claim_C1 7000 errStream witText 3 (fun _ => rfl) (by decide) (by decide)

/-- Counterexample to claim C1 as frozen: with a chunk-list response whose
content is not drawn from the document, the run returns, but the emitted
word sequence differs from the document word sequence. -/
theorem claim_C1_counterexample :
    (ctrlStepN 7000 garbStream 4 (initState witText)).phase = CPhase.done
    ∧ contentWords (ctrlStepN 7000 garbStream 4 (initState witText)).chunks ≠ wordsOf witText := by
  constructor
  · decide
  · decide

/-! ### One fallback chunk per window (all-error runs) -/

theorem count_innerAfterRefill (stream : Nat → SegResult) (s : CState) (ww : Nat)
    {m : List Char} (hs : stream s.calls = SegResult.error m)
    (h1 : s.chunks.length = s.iters) :
    (innerAfterRefill stream s ww).chunks.length = (innerAfterRefill stream s ww).iters
    ∧ ((innerAfterRefill stream s ww).phase = CPhase.inner →
       isBlank (innerAfterRefill stream s ww).working = false) := by
  unfold innerAfterRefill
  by_cases h10 : ww < 10
  · rw [if_pos h10]
    exact ⟨by simp [h1], fun h => by simp at h⟩
  · rw [if_neg h10, hs]
    exact ⟨by simp [h1], fun h => by simp at h⟩

theorem count_ctrlStep (chunkSize : Nat) (stream : Nat → SegResult) (s : CState)
    (Herr : ∀ k, ∃ m, stream k = SegResult.error m)
    (h1 : s.chunks.length = s.iters)
    (h2 : s.phase = CPhase.inner → isBlank s.working = false) :
    (ctrlStep chunkSize stream s).chunks.length = (ctrlStep chunkSize stream s).iters
    ∧ ((ctrlStep chunkSize stream s).phase = CPhase.inner →
       isBlank (ctrlStep chunkSize stream s).working = false) := by
  obtain ⟨cks, w, rem, ph, cl, it⟩ := s
  simp only at h1 h2
  cases ph with
  | done =>
    simp only [ctrlStep]
    exact ⟨h1, fun h => by simp at h⟩
  | outer =>
    simp only [ctrlStep]
    by_cases hb : isBlank rem = true
    · rw [if_pos hb]
      exact ⟨h1, fun h => by simp at h⟩
    · rw [if_neg hb]
      by_cases hw : isBlank (split_text_by_words rem chunkSize).1 = true
      · rw [if_pos hw]
        exact ⟨h1, fun h => by simp at h⟩
      · rw [if_neg hw]
        exact ⟨h1, fun _ => by simpa using hw⟩
  | inner =>
    have hwb : isBlank w = false := h2 rfl
    simp only [ctrlStep]
    rw [if_neg (by simp [hwb])]
    by_cases hcond : count_words w < MIN_CHUNK_REFILL_SIZE ∧ ¬ isBlank rem = true
    · rw [if_pos hcond]
      by_cases hf : isBlank (split_text_by_words rem MIN_CHUNK_REFILL_SIZE).1 = true
      · rw [if_neg (by simpa using hf)]
        rcases Herr cl with ⟨m, hm⟩
        exact count_innerAfterRefill stream
          ⟨cks, w, (split_text_by_words rem MIN_CHUNK_REFILL_SIZE).2, .inner, cl, it⟩
          (count_words w) hm h1
      · rw [if_pos (by simpa using hf)]
        refine ⟨h1, fun _ => ?_⟩
        simp [isBlank_pystrip, isBlank_append, hwb]
    · rw [if_neg hcond]
      rcases Herr cl with ⟨m, hm⟩
      exact count_innerAfterRefill stream ⟨cks, w, rem, .inner, cl, it⟩
        (count_words w) hm h1

/-- Claim C5 (amended): if the Segmenter returns an error on every call, the
run emits exactly one fallback chunk per working window (the chunk count
equals the number of completed outer iterations), and — provided every split
performed conserves the word sequence and extracts a non-blank prefix from a
non-blank remainder — the total emitted content covers the whole document.
(As frozen the claim promises coverage unconditionally; the counterexample
shows an input whose text is dropped entirely.) -/
theorem claim_C5 (chunkSize : Nat) (stream : Nat → SegResult) (text : List Char) (n : Nat)
    (Herr : ∀ k, ∃ m, stream k = SegResult.error m)
    (Hdone : (ctrlStepN chunkSize stream n (initState text)).phase = CPhase.done) :
    (ctrlStepN chunkSize stream n (initState text)).chunks.length
      = (ctrlStepN chunkSize stream n (initState text)).iters
    ∧ ((∀ k, k < n →
        splitConserves (ctrlStepN chunkSize stream k (initState text)).remaining chunkSize
        ∧ splitConserves (ctrlStepN chunkSize stream k (initState text)).remaining
            MIN_CHUNK_REFILL_SIZE
        ∧ splitProgressive (ctrlStepN chunkSize stream k (initState text)).remaining chunkSize)
       → contentWords (ctrlStepN chunkSize stream n (initState text)).chunks
           = wordsOf text) := by
  have Hresp : ∀ k, (stream k).isFallback = true := by
    intro k
    rcases Herr k with ⟨m, hm⟩
    rw [hm]
    rfl
  constructor
  · have main : ∀ m',
        (ctrlStepN chunkSize stream m' (initState text)).chunks.length
          = (ctrlStepN chunkSize stream m' (initState text)).iters
        ∧ ((ctrlStepN chunkSize stream m' (initState text)).phase = CPhase.inner →
           isBlank (ctrlStepN chunkSize stream m' (initState text)).working = false) := by
      intro m'
      induction m' with
      | zero =>
        refine ⟨rfl, fun h => ?_⟩
        simp [initState, ctrlStepN] at h
      | succ m' ih =>
        exact count_ctrlStep chunkSize stream _ Herr ih.1 ih.2
    exact (main n).1
  · intro Hsplit
    exact fallback_run_coverage chunkSize stream text n Hresp Hsplit Hdone

/-- Witness for `claim_C5`: the 12-word document with the always-failing
Segmenter: one window, one fallback chunk, full coverage (the split
hypotheses of the coverage half are discharged concretely). -/
theorem claim_C5_witness :
    (ctrlStepN 7000 errStream 3 (initState witText)).chunks.length
      = (ctrlStepN 7000 errStream 3 (initState witText)).iters
    ∧ contentWords (ctrlStepN 7000 errStream 3 (initState witText)).chunks = wordsOf witText := by
  obtain ⟨h1, h2⟩ := claim_C5 7000 errStream witText 3 (fun _ => ⟨chars "boom", rfl⟩) (by decide)
  exact ⟨h1, h2 (by decide)⟩

/-- Counterexample to claim C5 as frozen: a 12-word single-sentence document
with working chunk size 5 makes the splitter extract nothing; with the
always-failing Segmenter the run returns immediately with NO chunks at all,
covering none of the document. -/
theorem claim_C5_counterexample :
    (ctrlStepN 5 errStream 1 (initState witText)).phase = CPhase.done
    ∧ (ctrlStepN 5 errStream 1 (initState witText)).chunks = []
    ∧ wordsOf witText ≠ [] := by
  refine ⟨by decide, by decide, by decide⟩

/-! ### Termination of the controller -/

theorem split_snd_length_le (t : List Char) (g : Nat) :
    (split_text_by_words t g).2.length ≤ t.length := by
  unfold split_text_by_words
  by_cases h : count_words t ≤ g
  · rw [if_pos h]; simp
  · rw [if_neg h]
    by_cases he : joinNN (gatherParas g 0 (splitNN t)) = []
    · simp [he]
    · simp only [he, if_false]
      have h1 : ((t.drop (joinNN (gatherParas g 0 (splitNN t))).length).dropWhile
          (fun c => c = '\n' || c = ' ')).length
          ≤ (t.drop (joinNN (gatherParas g 0 (splitNN t))).length).length :=
        (List.dropWhile_sublist _).length_le
      rw [List.length_drop] at h1
      omega

/-- Rank of a control position: the inner loop exits to the outer loop,
which exits to the return. -/
def phaseRank : CPhase → Nat
  | .done => 0
  | .outer => 1
  | .inner => 2

/-- Second component of the termination measure: token count of the working
chunk plus the phase rank. -/
def innerMeasure (s : CState) : Nat := (tokensOf s.working).length + phaseRank s.phase

theorem innerMeasure_innerAfterRefill (stream : Nat → SegResult) (s : CState) (ww : Nat)
    (Hpos : ∀ cs, stream s.calls = SegResult.chunks cs → cs = [] ∨ 1 ≤ totalContentWords cs)
    (hph : s.phase = CPhase.inner) (hw : isBlank s.working = false) :
    innerMeasure (innerAfterRefill stream s ww) < innerMeasure s := by
  obtain ⟨cks, w, rem, ph, cl, it⟩ := s
  simp only at hph hw Hpos
  subst hph
  unfold innerAfterRefill
  by_cases h10 : ww < 10
  · rw [if_pos h10]
    simp [innerMeasure, phaseRank]
  · rw [if_neg h10]
    cases hs : stream cl with
    | error m => simp [innerMeasure, phaseRank]
    | chunks cs =>
      cases cs with
      | nil => simp [innerMeasure, phaseRank]
      | cons c cs' =>
        have htot : 1 ≤ totalContentWords (c :: cs') := by
          rcases Hpos (c :: cs') hs with habs | hle
          · exact absurd habs (by simp)
          · exact hle
        have htklen : 1 ≤ (tokensOf w).length :=
          List.length_pos.mpr (tokensOf_ne_nil hw)
        have hw2 : tokensOf ((c :: cs').foldl
              (fun w ch => remove_chunk_from_text w ch.content) w)
            = (tokensOf w).drop (totalContentWords (c :: cs')) :=
          tokensOf_fold_remove _ w
        simp only
        split_ifs <;>
          first
          | (have hnil : tokensOf ([] : List Char) = [] := rfl
             simp only [innerMeasure, phaseRank, hnil, List.length_nil]
             omega)
          | (simp only [innerMeasure, phaseRank]
             rw [hw2, List.length_drop]
             omega)

theorem ctrlStep_progress (chunkSize : Nat) (stream : Nat → SegResult)
    (Hpos : ∀ k cs, stream k = SegResult.chunks cs → cs = [] ∨ 1 ≤ totalContentWords cs)
    (s : CState) (h : ¬ s.phase = CPhase.done) :
    (ctrlStep chunkSize stream s).phase = CPhase.done
    ∨ (ctrlStep chunkSize stream s).remaining.length < s.remaining.length
    ∨ ((ctrlStep chunkSize stream s).remaining.length ≤ s.remaining.length
       ∧ innerMeasure (ctrlStep chunkSize stream s) < innerMeasure s) := by
  obtain ⟨cks, w, rem, ph, cl, it⟩ := s
  cases ph with
  | done => exact absurd rfl h
  | outer =>
    simp only [ctrlStep]
    by_cases hb : isBlank rem = true
    · rw [if_pos hb]; exact Or.inl rfl
    · rw [if_neg hb]
      by_cases hw : isBlank (split_text_by_words rem chunkSize).1 = true
      · rw [if_pos hw]; exact Or.inl rfl
      · rw [if_neg hw]
        exact Or.inr (Or.inl
          (split_snd_length_lt (by simpa using hb) (by simpa using hw)))
  | inner =>
    simp only [ctrlStep]
    by_cases hbw : isBlank w = true
    · rw [if_pos hbw]
      refine Or.inr (Or.inr ⟨le_rfl, ?_⟩)
      simp [innerMeasure, phaseRank]
    · rw [if_neg hbw]
      by_cases hcond : count_words w < MIN_CHUNK_REFILL_SIZE ∧ ¬ isBlank rem = true
      · rw [if_pos hcond]
        by_cases hf : isBlank (split_text_by_words rem MIN_CHUNK_REFILL_SIZE).1 = true
        · rw [if_neg (by simpa using hf)]
          refine Or.inr (Or.inr ⟨?_, ?_⟩)
          · rw [innerAfterRefill_remaining]
            exact split_snd_length_le rem MIN_CHUNK_REFILL_SIZE
          · exact innerMeasure_innerAfterRefill stream
              ⟨cks, w, (split_text_by_words rem MIN_CHUNK_REFILL_SIZE).2, .inner, cl, it⟩
              (count_words w) (fun cs hs => Hpos cl cs hs) rfl (by simpa using hbw)
        · rw [if_pos (by simpa using hf)]
          refine Or.inr (Or.inl ?_)
          exact split_snd_length_lt (by simpa using hcond.2) (by simpa using hf)
      · rw [if_neg hcond]
        refine Or.inr (Or.inr ⟨?_, ?_⟩)
        · rw [innerAfterRefill_remaining]
        · exact innerMeasure_innerAfterRefill stream ⟨cks, w, rem, .inner, cl, it⟩
            (count_words w) (fun cs hs => Hpos cl cs hs) rfl (by simpa using hbw)

theorem reach_done (chunkSize : Nat) (stream : Nat → SegResult)
    (Hpos : ∀ k cs, stream k = SegResult.chunks cs → cs = [] ∨ 1 ≤ totalContentWords cs) :
    ∀ r m (s : CState), s.remaining.length < r → innerMeasure s < m →
      ∃ n, (ctrlStepN chunkSize stream n s).phase = CPhase.done := by
  intro r
  induction r with
  | zero => intro m s h1 _; omega
  | succ r ihr =>
    intro m
    induction m with
    | zero => intro s _ h2; omega
    | succ m ihm =>
      intro s h1 h2
      by_cases hd : s.phase = CPhase.done
      · exact ⟨0, hd⟩
      · rcases ctrlStep_progress chunkSize stream Hpos s hd with hdone | hlt | ⟨hle, hinner⟩
        · exact ⟨1, hdone⟩
        · obtain ⟨n, hn⟩ := ihr (innerMeasure (ctrlStep chunkSize stream s) + 1)
            (ctrlStep chunkSize stream s) (by omega) (by omega)
          exact ⟨n + 1, by rw [ctrlStepN_succ_inner]; exact hn⟩
        · obtain ⟨n, hn⟩ := ihm (ctrlStep chunkSize stream s) (by omega) (by omega)
          exact ⟨n + 1, by rw [ctrlStepN_succ_inner]; exact hn⟩

/-- Claim C6 (amended): for every input text and every response stream in
which each chunk-list response is empty or carries at least one countable
word in its contents, `process_large_text` terminates: the run reaches the
returned state after finitely many iterations, and the state never changes
afterwards.  (As frozen the claim also covers chunk lists with zero
countable words; the counterexample makes the inner loop run forever with
such responses.  The Python code also never clears the window variable on
break, so the terminal state keeps the last window text in the dead
variable; the fixpoint conjunct expresses that nothing is revisited.) -/
theorem claim_C6 (chunkSize : Nat) (stream : Nat → SegResult) (text : List Char)
    (Hpos : ∀ k cs, stream k = SegResult.chunks cs → cs = [] ∨ 1 ≤ totalContentWords cs) :
    ∃ n, (ctrlStepN chunkSize stream n (initState text)).phase = CPhase.done
      ∧ ∀ m, n ≤ m →
        ctrlStepN chunkSize stream m (initState text)
          = ctrlStepN chunkSize stream n (initState text) := by
  obtain ⟨n, hn⟩ := reach_done chunkSize stream Hpos
    ((initState text).remaining.length + 1) (innerMeasure (initState text) + 1)
    (initState text) (by omega) (by omega)
  refine ⟨n, hn, ?_⟩
  intro m hm
  obtain ⟨k, rfl⟩ := Nat.exists_eq_add_of_le hm
  rw [Nat.add_comm n k, ctrlStepN_add]
  exact ctrlStepN_done chunkSize stream _ hn k

/-- Witness for `claim_C6`: the always-failing Segmenter satisfies the
response hypothesis vacuously, and the run on the 12-word document
terminates. -/
theorem claim_C6_witness :
    ∃ n, (ctrlStepN 7000 errStream n (initState witText)).phase = CPhase.done
      ∧ ∀ m, n ≤ m →
        ctrlStepN 7000 errStream m (initState witText)
          = ctrlStepN 7000 errStream n (initState witText) :=
  claim_C6 7000 errStream witText (fun _ _ h => nomatch h)

/-- A chunk whose content has zero countable words (`count_words "!" = 0`). -/
def bangChunk : SemChunk := ⟨chars "h", chars "!", [], chars "s"⟩

/-- A Segmenter that always returns one chunk with zero countable words. -/
def bangStream : Nat → SegResult := fun _ => SegResult.chunks [bangChunk]

theorem bang_fix (cks : List SemChunk) (cl it : Nat) :
    ctrlStep 7000 bangStream ⟨cks, witText, [], CPhase.inner, cl, it⟩
      = ⟨cks ++ [bangChunk], witText, [], CPhase.inner, cl + 1, it⟩ := rfl

theorem bang_loop (n : Nat) :
    ctrlStepN 7000 bangStream (n + 1) (initState witText)
      = ⟨List.replicate n bangChunk, witText, [], CPhase.inner, n, 0⟩ := by
  induction n with
  | zero => rfl
  | succ n ih =>
    show ctrlStep 7000 bangStream (ctrlStepN 7000 bangStream (n + 1) (initState witText)) = _
    rw [ih, bang_fix, ← List.replicate_succ']

/-- Counterexample to claim C6 as frozen: with a Segmenter that always
returns a single chunk whose content has zero countable words, the run on
the 12-word document never reaches the returned state — the inner loop spins
forever re-sending the unchanged window. -/
theorem claim_C6_counterexample :
    ¬ ∃ n, (ctrlStepN 7000 bangStream n (initState witText)).phase = CPhase.done := by
  rintro ⟨n, hn⟩
  cases n with
  | zero => simp [ctrlStepN, initState] at hn
  | succ n =>
    rw [bang_loop n] at hn
    simp at hn

/-! ### The splitter boundary slip, the removal strategy, and the budget -/

/-- The failing input for the splitter conservation contract: a first
paragraph of four sentences separated by single spaces, followed by a second
paragraph. -/
def c2Text : List Char := chars "a. b. c. dd.\n\nx y z"

/-- Claim C2 evaluated on the code at the failing input: with target 3 the
sentence-level fallback joins three sentences with blank lines, the
extracted prefix is NOT a contiguous prefix of the input, and the length
arithmetic of the remainder eats one character of the word `dd` — the split
destroys a word character, so `text = prefix + remainder` fails even modulo
whitespace. -/
theorem claim_C2_theorem :
    split_text_by_words c2Text 3 = (chars "a.\n\nb.\n\nc.", chars "d.\n\nx y z")
    ∧ ¬ ((chars "a.\n\nb.\n\nc.") <+: c2Text)
    ∧ wordsOf (chars "a.\n\nb.\n\nc.") ++ wordsOf (chars "d.\n\nx y z") ≠ wordsOf c2Text := by
  refine ⟨by decide, by decide, by decide⟩

/-- First index at which `pat` occurs as a contiguous substring (Python
`str.find`). -/
def findSub (pat : List Char) : List Char → Option Nat
  | [] => if pat.isEmpty then some 0 else none
  | c :: rest =>
    if pat.isPrefixOf (c :: rest) then some 0
    else (findSub pat rest).map (· + 1)

/-- Modelled from the spec: the dual removal strategy of
`removeProcessedContent` — locate the chunk content as a literal substring
of the window and delete that substring; only when it is not found, fall
back to removing `count(chunk.content)` leading words from the window. -/
def removeProcessedContentSpec (window content : List Char) : List Char :=
  match findSub content window with
  | some i => window.take i ++ window.drop (i + content.length)
  | none => joinSpace ((tokensOf window).drop (count_words content))

/-- Counterexample to claim C3 as frozen: on a window that contains the
chunk content verbatim (`"bb"` at index 3 of `"aa bb cc"`), the code does
not delete the located substring — it removes a leading word instead — so
its result differs from the dual strategy the claim describes. -/
theorem claim_C3_counterexample :
    findSub (chars "bb") (chars "aa bb cc") = some 3
    ∧ remove_chunk_from_text (chars "aa bb cc") (chars "bb")
        ≠ removeProcessedContentSpec (chars "aa bb cc") (chars "bb") := by
  refine ⟨by decide, by decide⟩

/-- Claim C3 (amended): `_remove_chunk_from_text` never performs a literal
substring search; for every window and content it removes exactly
`count_words content` leading whitespace-separated words from the window and
re-joins the rest with single spaces — the tokens of the result are the
tokens of the window with that many dropped, independently of where (or
whether) the content occurs in the window. -/
theorem claim_C3_theorem (w c : List Char) :
    tokensOf (remove_chunk_from_text w c) = (tokensOf w).drop (count_words c) :=
  tokensOf_remove_chunk w c

/-- A single over-budget sentence with no internal split points. -/
def c4Text : List Char := chars "aa bb cc dd ee"

/-- Counterexample to claim C4 as frozen: this text is a single sentence of
5 words exceeding the target 2; the claim says such a sentence is included
whole (so the prefix may exceed the budget by the unit size), but the code
returns an EMPTY prefix — the over-budget sentence is excluded, not
included. -/
theorem claim_C4_counterexample :
    2 < count_words c4Text
    ∧ splitSent c4Text = [c4Text]
    ∧ split_text_by_words c4Text 2 = ([], c4Text) := by
  refine ⟨by decide, by decide, by decide⟩

/-- Claim C4 (amended): the word budget is a hard ceiling: for every text
and every target, the extracted prefix has `count_words` at most the target.
A sentence that alone exceeds the remaining budget is excluded entirely
(possibly yielding an empty prefix), never included whole and never cut. -/
theorem claim_C4_theorem (text : List Char) (target : Nat) :
    count_words (split_text_by_words text target).1 ≤ target := by
  unfold split_text_by_words
  by_cases h : count_words text ≤ target
  · rw [if_pos h]
    exact h
  · rw [if_neg h]
    by_cases he : joinNN (gatherParas target 0 (splitNN text)) = []
    · simp only [he, if_true]
      exact Nat.zero_le target
    · simp only [he, if_false]
      have hsum := gatherParas_sum target (splitNN text) 0 (Nat.zero_le target)
      rw [count_words_joinNN]
      omega

/-- Claim C10: on the 12-word single-sentence single-paragraph document with
target 5, the word count exceeds the target, the first paragraph and first
sentence each exceed the budget, `split_text_by_words` returns an empty
prefix with the whole input as remainder, and `process_large_text`
immediately exits its outer loop, returning no chunks and dropping the
remaining text. -/
theorem claim_C10 :
    5 < count_words witText
    ∧ 5 < count_words ((splitNN witText).headD [])
    ∧ 5 < count_words ((splitSent witText).headD [])
    ∧ split_text_by_words witText 5 = ([], witText)
    ∧ process_large_text 5 emptyStream witText 1 = some []
    ∧ (ctrlStepN 5 emptyStream 1 (initState witText)).remaining = witText := by
  refine ⟨by decide, by decide, by decide, by decide, by decide, by decide⟩

/-! ### The retrieval front-end of `src/vector_database.py` -/

/-- Insert into a list sorted by descending score. -/
def insertDesc (x : Nat × ℚ) : List (Nat × ℚ) → List (Nat × ℚ)
  | [] => [x]
  | y :: ys => if y.2 ≤ x.2 then x :: y :: ys else y :: insertDesc x ys

/-- Insertion sort by descending score. -/
def sortDesc : List (Nat × ℚ) → List (Nat × ℚ)
  | [] => []
  | x :: xs => insertDesc x (sortDesc xs)

theorem mem_insertDesc {z x : Nat × ℚ} : ∀ {l : List (Nat × ℚ)},
    z ∈ insertDesc x l ↔ z = x ∨ z ∈ l := by
  intro l
  induction l with
  | nil => simp [insertDesc]
  | cons y ys ih =>
    by_cases h : y.2 ≤ x.2
    · simp [insertDesc, h]
    · simp only [insertDesc, h, if_false, List.mem_cons, ih]
      tauto

theorem pairwise_insertDesc {x : Nat × ℚ} : ∀ {l : List (Nat × ℚ)},
    l.Pairwise (fun a b => b.2 ≤ a.2) →
    (insertDesc x l).Pairwise (fun a b => b.2 ≤ a.2) := by
  intro l
  induction l with
  | nil => intro _; simp [insertDesc]
  | cons y ys ih =>
    intro hp
    rcases List.pairwise_cons.mp hp with ⟨hy, hys⟩
    by_cases h : y.2 ≤ x.2
    · rw [insertDesc, if_pos h]
      refine List.pairwise_cons.mpr ⟨?_, hp⟩
      intro z hz
      rcases List.mem_cons.mp hz with hz | hz
      · subst hz; exact h
      · exact le_trans (hy z hz) h
    · rw [insertDesc, if_neg h]
      refine List.pairwise_cons.mpr ⟨?_, ih hys⟩
      intro z hz
      rcases mem_insertDesc.mp hz with hz | hz
      · subst hz; exact le_of_not_le h
      · exact hy z hz

theorem pairwise_sortDesc : ∀ (l : List (Nat × ℚ)),
    (sortDesc l).Pairwise (fun a b => b.2 ≤ a.2) := by
  intro l
  induction l with
  | nil => simp [sortDesc]
  | cons x xs ih => exact pairwise_insertDesc ih

theorem mem_sortDesc {z : Nat × ℚ} : ∀ {l : List (Nat × ℚ)},
    z ∈ sortDesc l ↔ z ∈ l := by
  intro l
  induction l with
  | nil => simp [sortDesc]
  | cons x xs ih =>
    simp [sortDesc, mem_insertDesc, ih]

/-- Outcome of a search: ranked results as chunk id and score, the reported
search method, and whether the sparse embedding path
(`_get_sparse_embedding` inside `_hybrid_search`) was invoked. -/
structure SearchOutcome where
  results : List (Nat × ℚ)
  method : String
  sparseEmbedCalled : Bool
deriving DecidableEq

/-- Collaborator environment of one `search_similar_chunks` call: whether
the query embedding succeeds, whether the collection supports sparse
vectors, whether the sparse embedding of the query succeeds, and the ranked
candidate lists held by the index for the dense and sparse arms (`none`
models an exception raised at the index boundary). -/
structure SearchEnv where
  denseEmbed : Bool
  sparseSupport : Bool
  sparseEmbed : Bool
  denseRank : Option (List (Nat × ℚ))
  sparseRank : Option (List (Nat × ℚ))

/-- `prefetch_limit = max(limit * 3, limit + 10)` of `_hybrid_search`. -/
def prefetchLimit (limit : Nat) : Nat := max (limit * 3) (limit + 10)

/-- The reciprocal-rank term of one list: `1/(60 + rank)` at the 1-based
rank of `i` in the list, `0` when absent. -/
def rrfRankScore (l : List Nat) (i : Nat) : ℚ :=
  match l.indexOf? i with
  | some idx => 1 / (60 + (idx + 1 : ℚ))
  | none => 0

/-- Modelled from the spec: the fused-query primitive (`queryFused`,
performed by the external vector store on `Fusion.RRF` in `_hybrid_search`)
is not code under src/; per the spec, each chunk id appearing in either
prefetched list receives the sum of `1/(60+rank)` over the lists containing
it, and the fused ranking is sorted descending by score and truncated to
`limit`. -/
def queryFusedRRF (dl sl : List Nat) (limit : Nat) : List (Nat × ℚ) :=
  (sortDesc ((dl ++ sl).dedup.map fun i => (i, rrfRankScore dl i + rrfRankScore sl i))).take
    limit

/-- `_dense_search`: query the dense arm with the requested limit; an index
exception yields empty results with method `"failed"`. -/
def dense_search (env : SearchEnv) (limit : Nat) : SearchOutcome :=
  match env.denseRank with
  | none => ⟨[], "failed", false⟩
  | some dl => ⟨dl.take limit, "dense-only", false⟩

/-- `_hybrid_search`: obtain the sparse embedding (falling back to dense
search when it fails), then issue the fused query with `prefetchLimit`
candidates from each arm; an index exception falls back to dense search. -/
def hybrid_search (env : SearchEnv) (limit : Nat) : SearchOutcome :=
  if env.sparseEmbed then
    match env.denseRank, env.sparseRank with
    | some dl, some sl =>
      ⟨queryFusedRRF ((dl.take (prefetchLimit limit)).map Prod.fst)
        ((sl.take (prefetchLimit limit)).map Prod.fst) limit, "hybrid", true⟩
    | _, _ =>
      let o := dense_search env limit
      ⟨o.results, o.method, true⟩
  else
    let o := dense_search env limit
    ⟨o.results, o.method, true⟩

/-- `search_similar_chunks` of `src/vector_database.py`: failed query
embedding reports `"failed"`; otherwise hybrid search when the collection
supports sparse vectors, dense-only search when it does not. -/
def search_similar_chunks (env : SearchEnv) (limit : Nat) : SearchOutcome :=
  if env.denseEmbed then
    if env.sparseSupport then hybrid_search env limit
    else dense_search env limit
  else ⟨[], "failed", false⟩

/-- Claim C7: when both retrieval arms are available, the search requests
`max(limit*3, limit+10)` candidates from each arm and reports method
`"hybrid"`, and the fused ranking follows reciprocal rank fusion: at most
`limit` results, sorted descending by fused score, every returned id drawn
from the prefetched arms, and every returned score equal to the sum over the
arms containing the id of `1/(60 + rank)` with 1-based ranks. -/
theorem claim_C7 (env : SearchEnv) (limit : Nat) (dl sl : List (Nat × ℚ))
    (h1 : env.denseEmbed = true) (h2 : env.sparseSupport = true)
    (h3 : env.sparseEmbed = true) (h4 : env.denseRank = some dl)
    (h5 : env.sparseRank = some sl) :
    (search_similar_chunks env limit).method = "hybrid"
    ∧ prefetchLimit limit = max (limit * 3) (limit + 10)
    ∧ (search_similar_chunks env limit).results.length ≤ limit
    ∧ ((search_similar_chunks env limit).results.map Prod.snd).Pairwise (· ≥ ·)
    ∧ ∀ pr ∈ (search_similar_chunks env limit).results,
        (pr.1 ∈ (dl.take (prefetchLimit limit)).map Prod.fst
          ∨ pr.1 ∈ (sl.take (prefetchLimit limit)).map Prod.fst)
        ∧ pr.2 = rrfRankScore ((dl.take (prefetchLimit limit)).map Prod.fst) pr.1
               + rrfRankScore ((sl.take (prefetchLimit limit)).map Prod.fst) pr.1 := by
  have hout : search_similar_chunks env limit =
      ⟨queryFusedRRF ((dl.take (prefetchLimit limit)).map Prod.fst)
        ((sl.take (prefetchLimit limit)).map Prod.fst) limit, "hybrid", true⟩ := by
    unfold search_similar_chunks hybrid_search
    rw [h1, h2, h3, h4, h5]
    simp
  rw [hout]
  refine ⟨rfl, rfl, ?_, ?_, ?_⟩
  · exact List.length_take_le _ _
  · rw [List.pairwise_map]
    refine List.Pairwise.sublist (List.take_sublist _ _) ?_
    exact pairwise_sortDesc _
  · intro pr hpr
    have hmem : pr ∈ sortDesc (((dl.take (prefetchLimit limit)).map Prod.fst
        ++ (sl.take (prefetchLimit limit)).map Prod.fst).dedup.map
          fun i => (i, rrfRankScore ((dl.take (prefetchLimit limit)).map Prod.fst) i
            + rrfRankScore ((sl.take (prefetchLimit limit)).map Prod.fst) i)) :=
      List.mem_of_mem_take hpr
    have hmem2 := mem_sortDesc.mp hmem
    rcases List.mem_map.mp hmem2 with ⟨i, hi, hpr2⟩
    have hid : pr.1 = i := by rw [← hpr2]
    have hidmem := List.mem_dedup.mp hi
    subst hpr2
    constructor
    · simpa using List.mem_append.mp hidmem
    · rfl

/-- Concrete dense ranking for the `claim_C7` witness. -/
def c7dl : List (Nat × ℚ) := [(1, 9/10), (2, 8/10), (3, 7/10)]

/-- Concrete sparse ranking for the `claim_C7` witness. -/
def c7sl : List (Nat × ℚ) := [(2, 5), (4, 3)]

/-- Witness for `claim_C7` at a concrete environment with three dense and
two sparse candidates and limit 2. -/
theorem claim_C7_witness :
    (search_similar_chunks ⟨true, true, true, some c7dl, some c7sl⟩ 2).method = "hybrid"
    ∧ prefetchLimit 2 = max (2 * 3) (2 + 10)
    ∧ (search_similar_chunks ⟨true, true, true, some c7dl, some c7sl⟩ 2).results.length ≤ 2
    ∧ ((search_similar_chunks ⟨true, true, true, some c7dl, some c7sl⟩ 2).results.map
        Prod.snd).Pairwise (· ≥ ·)
    ∧ ∀ pr ∈ (search_similar_chunks ⟨true, true, true, some c7dl, some c7sl⟩ 2).results,
        (pr.1 ∈ (c7dl.take (prefetchLimit 2)).map Prod.fst
          ∨ pr.1 ∈ (c7sl.take (prefetchLimit 2)).map Prod.fst)
        ∧ pr.2 = rrfRankScore ((c7dl.take (prefetchLimit 2)).map Prod.fst) pr.1
               + rrfRankScore ((c7sl.take (prefetchLimit 2)).map Prod.fst) pr.1 :=
  claim_C7 ⟨true, true, true, some c7dl, some c7sl⟩ 2 c7dl c7sl rfl rfl rfl rfl rfl

/-- Claim C8 (amended): when the collection does not support sparse vectors,
the sparse embedding path is never invoked, and the reported method is
`"dense-only"` exactly when the query embedding and the dense query succeed;
when either fails it is `"failed"`.  (As frozen the claim says the method is
always `"dense-only"`; the counterexample shows a failing query embedding
reports `"failed"`.) -/
theorem claim_C8 (env : SearchEnv) (limit : Nat) (h : env.sparseSupport = false) :
    (search_similar_chunks env limit).sparseEmbedCalled = false
    ∧ ((search_similar_chunks env limit).method = "dense-only"
       ∨ (search_similar_chunks env limit).method = "failed")
    ∧ ((search_similar_chunks env limit).method = "failed"
       ↔ (env.denseEmbed = false ∨ env.denseRank = none)) := by
  obtain ⟨de, ss, se, dr, sr⟩ := env
  simp only at h
  subst h
  cases de
  · refine ⟨rfl, Or.inr rfl, ?_⟩
    simp [search_similar_chunks]
  · cases dr with
    | none =>
      refine ⟨rfl, Or.inr rfl, ?_⟩
      simp [search_similar_chunks, dense_search]
    | some l =>
      refine ⟨rfl, Or.inl rfl, ?_⟩
      constructor
      · intro habs
        simp [search_similar_chunks, dense_search] at habs
      · intro habs
        rcases habs with habs | habs <;> simp at habs

/-- Counterexample to claim C8 as frozen: with no sparse support and a
failing query embedding, the search reports `"failed"`, not
`"dense-only"`. -/
theorem claim_C8_counterexample :
    (search_similar_chunks ⟨false, false, false, none, none⟩ 5).method ≠ "dense-only"
    ∧ (search_similar_chunks ⟨false, false, false, none, none⟩ 5).method = "failed" := by
  refine ⟨by decide, by decide⟩

/-- Witness for `claim_C8` at a concrete environment whose query embedding
and dense query succeed. -/
theorem claim_C8_witness :
    (search_similar_chunks ⟨true, false, true, some [(1, 1)], none⟩ 5).sparseEmbedCalled = false
    ∧ ((search_similar_chunks ⟨true, false, true, some [(1, 1)], none⟩ 5).method = "dense-only"
       ∨ (search_similar_chunks ⟨true, false, true, some [(1, 1)], none⟩ 5).method = "failed")
    ∧ ((search_similar_chunks ⟨true, false, true, some [(1, 1)], none⟩ 5).method = "failed"
       ↔ ((true : Bool) = false ∨ (some [((1 : Nat), (1 : ℚ))] : Option (List (Nat × ℚ))) = none)) :=
  claim_C8 ⟨true, false, true, some [(1, 1)], none⟩ 5 rfl

/-! ### The retry policy of `break_text_into_chunks` in `src/ai_services.py` -/

/-- Outcome of one `generate_content` attempt: a JSON response (with or
without the `chunks` key), a non-JSON response, or a raised exception with a
message. -/
inductive ApiAttempt where
  | jsonOk (hasChunks : Bool) (body : List Char)
  | jsonBad
  | exc (msg : List Char)

/-- The timeout keyword list of `break_text_into_chunks`. -/
def timeoutKeywords : List (List Char) :=
  [chars "timeout", chars "timed out", chars "deadline exceeded",
   chars "connection timeout", chars "read timeout", chars "request timeout"]

/-- `is_timeout`: some keyword occurs as a substring of the lowercased
message. -/
def isTimeoutMsg (msg : List Char) : Bool :=
  timeoutKeywords.any fun k => (findSub k (msg.map Char.toLower)).isSome

/-- The value returned by `break_text_into_chunks`: the raw chunk JSON on
success, or one of its error payloads; `noneResult` models falling off the
loop (unreachable with a positive retry count). -/
inductive BreakResult where
  | success (body : List Char)
  | errMissingChunks
  | errBadJson
  | errTimeout (msg : List Char)
  | errApi (msg : List Char)
  | noneResult
deriving DecidableEq

/-- A run of `break_text_into_chunks`: its result, the number of
`generate_content` calls made, and the sleeps performed between attempts. -/
structure BreakRun where
  result : BreakResult
  calls : Nat
  sleeps : List Nat
deriving DecidableEq

/-- `max_retries = 2` of `break_text_into_chunks`. -/
def MAX_RETRIES : Nat := 2

/-- The retry loop of `break_text_into_chunks`: `attempt` is the 0-based
attempt index, `fuel` the remaining attempts; a timeout-class exception on a
non-final attempt sleeps `2 ** attempt` seconds and retries, every other
outcome returns immediately. -/
def breakLoop (oc : Nat → ApiAttempt) : Nat → Nat → BreakRun
  | _, 0 => ⟨.noneResult, 0, []⟩
  | attempt, fuel + 1 =>
    match oc attempt with
    | .jsonOk true body => ⟨.success body, 1, []⟩
    | .jsonOk false _ => ⟨.errMissingChunks, 1, []⟩
    | .jsonBad => ⟨.errBadJson, 1, []⟩
    | .exc msg =>
      if isTimeoutMsg msg then
        if fuel = 0 then ⟨.errTimeout msg, 1, []⟩
        else
          let rest := breakLoop oc (attempt + 1) fuel
          ⟨rest.result, rest.calls + 1, 2 ^ attempt :: rest.sleeps⟩
      else ⟨.errApi msg, 1, []⟩

/-- `break_text_into_chunks` of `src/ai_services.py` over the attempt
outcomes `oc`. -/
def break_text_into_chunks (oc : Nat → ApiAttempt) : BreakRun :=
  breakLoop oc 0 MAX_RETRIES

theorem breakLoop_one (oc : Nat → ApiAttempt) (attempt : Nat) :
    breakLoop oc attempt 1 =
      match oc attempt with
      | .jsonOk true b => ⟨.success b, 1, []⟩
      | .jsonOk false _ => ⟨.errMissingChunks, 1, []⟩
      | .jsonBad => ⟨.errBadJson, 1, []⟩
      | .exc m =>
        if isTimeoutMsg m then ⟨.errTimeout m, 1, []⟩ else ⟨.errApi m, 1, []⟩ := by
  unfold breakLoop
  cases oc attempt with
  | jsonOk hc b => cases hc <;> rfl
  | jsonBad => rfl
  | exc m => by_cases ht : isTimeoutMsg m = true <;> simp [ht]

/-- Claim C9: only timeout-class failures are retried, the attempt count is
capped at `max_retries = 2`, a retry is preceded by an exponential-backoff
sleep of `2 ** attempt` seconds, and a non-timeout failure on the first
attempt propagates immediately as an error result with no retry and no
sleep. -/
theorem claim_C9 (oc : Nat → ApiAttempt) :
    (break_text_into_chunks oc).calls ≤ MAX_RETRIES
    ∧ ((break_text_into_chunks oc).calls = 2 →
        ∃ m, oc 0 = ApiAttempt.exc m ∧ isTimeoutMsg m = true
          ∧ (break_text_into_chunks oc).sleeps = [2 ^ 0])
    ∧ (∀ m, oc 0 = ApiAttempt.exc m → isTimeoutMsg m = false →
        break_text_into_chunks oc = ⟨BreakResult.errApi m, 1, []⟩) := by
  unfold break_text_into_chunks MAX_RETRIES
  cases h0 : oc 0 with
  | jsonOk hc b =>
    cases hc <;>
      exact ⟨by rw [breakLoop, h0]; simp,
        fun habs => absurd habs (by rw [breakLoop, h0]; simp),
        fun m hm => nomatch hm⟩
  | jsonBad =>
    exact ⟨by rw [breakLoop, h0]; simp,
      fun habs => absurd habs (by rw [breakLoop, h0]; simp),
      fun m hm => nomatch hm⟩
  | exc m =>
    by_cases ht : isTimeoutMsg m = true
    · have hrw : breakLoop oc 0 2 =
          ⟨(breakLoop oc 1 1).result, (breakLoop oc 1 1).calls + 1,
            2 ^ 0 :: (breakLoop oc 1 1).sleeps⟩ := by
        rw [breakLoop, h0]
        simp [ht]
      have hone : (breakLoop oc 1 1).calls ≤ 1 ∧ (breakLoop oc 1 1).sleeps = [] := by
        rw [breakLoop_one]
        cases h1 : oc 1 with
        | jsonOk hc b => cases hc <;> simp
        | jsonBad => simp
        | exc m2 => by_cases ht2 : isTimeoutMsg m2 = true <;> simp [ht2]
      refine ⟨?_, ?_, ?_⟩
      · rw [hrw]
        have := hone.1
        simp
        omega
      · intro _
        exact ⟨m, rfl, ht, by rw [hrw, hone.2]⟩
      · intro m' hm' ht'
        obtain rfl : m = m' := by injection hm'
        rw [ht'] at ht
        exact absurd ht (by simp)
    · have ht' : isTimeoutMsg m = false := by simpa using ht
      have hrw : breakLoop oc 0 2 = ⟨.errApi m, 1, []⟩ := by
        rw [breakLoop, h0]
        simp [ht']
      refine ⟨by rw [hrw]; exact one_le_two, fun habs => by rw [hrw] at habs; simp at habs, ?_⟩
      intro m' hm' _
      obtain rfl : m = m' := by injection hm'
      exact hrw

/-- Witness for `claim_C9`: a non-timeout authentication failure on the
first attempt returns the API error immediately, with one call and no
sleeps. -/
theorem claim_C9_witness :
    break_text_into_chunks (fun _ => ApiAttempt.exc (chars "authentication failed"))
      = ⟨BreakResult.errApi (chars "authentication failed"), 1, []⟩ :=
  (claim_C9 (fun _ => ApiAttempt.exc (chars "authentication failed"))).2.2
    (chars "authentication failed") rfl (by decide)
